import Mathlib

/-!
Verification development for the MUSCUTS baseline image-to-sequence
transformer (`src/transformer/model.py`).

The Python source is shallowly embedded: tensors become explicit shape data
plus total index functions, Python's global `random` module becomes an
explicit stream-based random source threaded through the computation, and
the in-place tensor mutation done by the teacher-forcing corruptor is
modelled on an explicit heap of tensor ids, so that frame (non-mutation)
properties are statable.  Trigonometric table entries are kept symbolic
(which trig function, which position, which frequency exponent), since the
claims under study are about the structure of the table, and the map from a
frequency exponent `q` to the real denominator `10000 ^ q` is strictly
monotone, hence injective.
-/

/-! ## Python `random` module, modelled as an explicit stream source

`random.random()` draws `rfun k` at the k-th call (a rational in `[0,1)`),
`random.randint(0, hi)` draws `ifun k hi` at the k-th call (a natural
`≤ hi`).  The bounds are well-formedness assumptions `WFRandom`. -/

structure PyRandom where
  rfun : ℕ → ℚ
  ifun : ℕ → ℕ → ℕ
  rkey : ℕ
  ikey : ℕ

/-- A well-formed random source: `random.random()` outputs lie in `[0, 1)`
and `random.randint(0, hi)` outputs lie in `[0, hi]`. -/
def WFRandom (g : PyRandom) : Prop :=
  (∀ k, 0 ≤ g.rfun k ∧ g.rfun k < 1) ∧ (∀ k hi, g.ifun k hi ≤ hi)

/-- One call of `random.random()`. -/
def pyRandom (g : PyRandom) : ℚ × PyRandom :=
  (g.rfun g.rkey, { g with rkey := g.rkey + 1 })

/-- One call of `random.randint(0, hi)`. -/
def pyRandint (g : PyRandom) (hi : ℕ) : ℕ × PyRandom :=
  (g.ifun g.ikey hi, { g with ikey := g.ikey + 1 })

/-! ## A small heap of integer matrices

Tensors handled by the teacher-forcing corruptor are `[batch, seq_len]`
integer matrices, modelled as `List (List ℕ)`.  The heap assigns a matrix
to every tensor id, so that cloning and in-place cell mutation — and hence
the *absence* of mutation of the caller's tensor — are expressible. -/

structure PyHeap where
  store : ℕ → List (List ℕ)
  nextId : ℕ

/-- `y.clone()`: allocate a fresh id holding a copy of the source. -/
def heapClone (h : PyHeap) (src : ℕ) : ℕ × PyHeap :=
  (h.nextId, ⟨Function.update h.store h.nextId (h.store src), h.nextId + 1⟩)

/-- Read cell `(i, j)` of a matrix (0 when out of range, which never
happens on the executions considered). -/
def getCell (l : List (List ℕ)) (i j : ℕ) : ℕ :=
  (l.getD i []).getD j 0

/-- Write cell `(i, j)` of a matrix (no-op out of range, like
`List.set`). -/
def setCell (l : List (List ℕ)) (i j v : ℕ) : List (List ℕ) :=
  l.set i ((l.getD i []).set j v)

/-- In-place update `t[i, j] = v` of the tensor with id `tid`. -/
def heapSet (h : PyHeap) (tid i j v : ℕ) : PyHeap :=
  { h with store := Function.update h.store tid (setCell (h.store tid) i j v) }

/-! ## 2D positional encoding table (`PositionalEncoding2D.__init__`)

Entries of the table are kept symbolic: `PEVal t pos e` stands for the real
number `t (pos / 10000 ^ e)` (`t` being `sin` or `cos`); `none` stands for
an entry left at its zero initialisation.  `denExp C` lists the frequency
*exponents* `i / C` for `i = torch.arange(0, C//2, 2)`, so the code's
denominator tensor is `(denExp C).map (fun q => (10000 : ℝ) ^ q)`. -/

inductive Trig where
  | sin : Trig
  | cos : Trig
deriving DecidableEq, Repr

structure PEVal where
  trig : Trig
  pos : ℕ
  e : ℚ
deriving DecidableEq, Repr

/-- A 4-axis tensor: shape `[d0, d1, d2, d3]` plus a total index
function. -/
structure Tensor4 (α : Type) where
  d0 : ℕ
  d1 : ℕ
  d2 : ℕ
  d3 : ℕ
  data : ℕ → ℕ → ℕ → ℕ → α

/-- `t.permute(0, 3, 1, 2)` of a 4-axis tensor. -/
def permute0312 {α : Type} (t : Tensor4 α) : Tensor4 α :=
  ⟨t.d0, t.d3, t.d1, t.d2, fun a b c d => t.data a c d b⟩

/-- `torch.arange(0, stop, 2)` as a list of naturals. -/
def arange2 (stop : ℕ) : List ℕ :=
  (List.range ((stop + 1) / 2)).map (fun k => 2 * k)

/-- Frequency exponents of `den = torch.pow(10000, torch.arange(0,
num_channels // 2, 2) / num_channels)`: the code's `den[j]` equals
`10000 ^ (denExp C)[j]`. -/
def denExp (C : ℕ) : List ℚ :=
  (arange2 (C / 2)).map (fun (i : ℕ) => (i : ℚ) / (C : ℚ))

/-- The frequency exponents read literally off the specification text:
denominators `10000 ^ (2 * i / C)` for `i = 0, 2, 4, …` below `C / 2`. -/
def specDenExp (C : ℕ) : List ℚ :=
  (arange2 (C / 2)).map (fun (i : ℕ) => (2 * (i : ℚ)) / (C : ℚ))

/-- The real denominator list denoted by a list of exponents. -/
noncomputable def realDen (l : List ℚ) : List ℝ :=
  l.map (fun (q : ℚ) => (10000 : ℝ) ^ ((q : ℚ) : ℝ))

/-- Number of indices selected by the slice `[start:stop:2]`. -/
def sliceLen2 (start stop : ℕ) : ℕ :=
  (stop - start + 1) / 2

/-- PyTorch broadcast check for copying a last axis of size `srcLen` into a
sliced last axis of size `tgtLen`: sizes must agree, or the source axis
must have size 1 (which then expands, also to an empty target). -/
def bcastOk (tgtLen srcLen : ℕ) : Bool :=
  srcLen == tgtLen || srcLen == 1

/-- Slice-assignment `t[..., start:stop:2] = rhs` on the last axis, where
`rhs a h w j` is the source entry whose last-axis index is `j` and
`srcLen` is the source's last-axis size (a size-1 source broadcasts). -/
def assignLast2 {α : Type} (t : Tensor4 α) (start stop srcLen : ℕ)
    (rhs : ℕ → ℕ → ℕ → ℕ → α) : Tensor4 α :=
  { t with
    data := fun a h w c =>
      if start ≤ c ∧ c < stop ∧ (c - start) % 2 = 0 then
        rhs a h w (if srcLen = 1 then 0 else (c - start) / 2)
      else t.data a h w c }

/-- The table built by `PositionalEncoding2D.__init__` for `num_channels =
C`, `max_height = H`, `max_width = W`: a `[1, H, W, C]` zero tensor gets
four strided slice assignments on the channel axis (sin/cos of width
position on the first half of channels, sin/cos of height position on the
second half) and is then permuted to `[1, C, H, W]`.  `none` is returned
when one of the four assignments fails PyTorch's broadcast check (the
Python code raises a `RuntimeError` there). -/
def buildPE (C H W : ℕ) : Option (Tensor4 (Option PEVal)) :=
  let den := denExp C
  let L := den.length
  if bcastOk (sliceLen2 0 (C / 2)) L && bcastOk (sliceLen2 1 (C / 2)) L &&
      bcastOk (sliceLen2 (C / 2) C) L && bcastOk (sliceLen2 (C / 2 + 1) C) L then
    let pe0 : Tensor4 (Option PEVal) := ⟨1, H, W, C, fun _ _ _ _ => none⟩
    let pe1 := assignLast2 pe0 0 (C / 2) L
      (fun _ _ w j => some ⟨Trig.sin, w, den.getD j 0⟩)
    let pe2 := assignLast2 pe1 1 (C / 2) L
      (fun _ _ w j => some ⟨Trig.cos, w, den.getD j 0⟩)
    let pe3 := assignLast2 pe2 (C / 2) C L
      (fun _ h _ j => some ⟨Trig.sin, h, den.getD j 0⟩)
    let pe4 := assignLast2 pe3 (C / 2 + 1) C L
      (fun _ h _ j => some ⟨Trig.cos, h, den.getD j 0⟩)
    some (permute0312 pe4)
  else
    none

/-! ## Feature flattening (`x.flatten(2).permute(0, 2, 1)`)

The step shared by `Transformer.forward` and `Transformer.validation_step`
that turns the positionally-encoded `[batch, C, H, W]` grid into the
`[batch, H*W, C]` decoder memory. -/

/-- A 3-axis tensor: shape `[d0, d1, d2]` plus a total index function. -/
structure Tensor3 (α : Type) where
  d0 : ℕ
  d1 : ℕ
  d2 : ℕ
  data : ℕ → ℕ → ℕ → α

/-- `t.flatten(2)`: merge the last two axes in row-major order, giving a
`[d0, d1, d2*d3]` tensor whose merged index `k` addresses `(k / d3, k %
d3)` of the original. -/
def flatten2 {α : Type} (t : Tensor4 α) : Tensor3 α :=
  ⟨t.d0, t.d1, t.d2 * t.d3, fun b c k => t.data b c (k / t.d3) (k % t.d3)⟩

/-- `t.permute(0, 2, 1)` of a 3-axis tensor. -/
def permute021 {α : Type} (t : Tensor3 α) : Tensor3 α :=
  ⟨t.d0, t.d2, t.d1, fun b s c => t.data b c s⟩

/-- The full flattening adapter `x.flatten(2).permute(0, 2, 1)`. -/
def flattenFeatures {α : Type} (t : Tensor4 α) : Tensor3 α :=
  permute021 (flatten2 t)

/-! ## The `Transformer` module state

`Img` is the (opaque) type of input images and `Mem` the type of decoder
memory produced by the encoder → positional-encoding → flattening pipeline;
the internal architecture of `Encoder` and `Decoder` is external to the
repository, so both are fields holding opaque functions.  `decFull tgt mem
v pos` is the decoder's output logit for vocabulary index `v` at target
position `pos` (the Python `decoder(...)[0, v, pos]` for batch size 1).
`sosWord`/`eosWord` stand for the imported constants `SOS_TOKEN` /
`EOS_TOKEN` of `data.ar_dataset`, which is not part of this repository's
sources, so their string values stay abstract. -/

structure Transformer (Img Mem : Type) where
  w2i : String → ℕ
  i2w : ℕ → String
  ytest_i2w : ℕ → String
  padding_idx : ℕ
  max_seq_len : ℕ
  teacher_forcing_prob : ℚ
  vocab_size : ℕ
  sosWord : String
  eosWord : String
  prepMem : List Img → Mem
  decFull : List ℕ → Mem → ℕ → ℕ → ℚ
  Y : List (List String)
  YHat : List (List String)

/-- `Transformer.__init__`: the optional evaluation-time `ytest_i2w`
mapping defaults to the model's own `i2w` when `None` is supplied, the
padding index is looked up as `w2i["<PAD>"]`, and both prediction
accumulators start empty.  `vocab_size` stands for `len(self.w2i)`. -/
def mkTransformer {Img Mem : Type} (max_seq_len : ℕ) (w2i : String → ℕ)
    (i2w : ℕ → String) (ytest_i2w : Option (ℕ → String))
    (teacher_forcing_prob : ℚ) (vocab_size : ℕ) (sosWord eosWord : String)
    (prepMem : List Img → Mem) (decFull : List ℕ → Mem → ℕ → ℕ → ℚ) :
    Transformer Img Mem :=
  { w2i := w2i
    i2w := i2w
    ytest_i2w := ytest_i2w.getD i2w
    padding_idx := w2i "<PAD>"
    max_seq_len := max_seq_len
    teacher_forcing_prob := teacher_forcing_prob
    vocab_size := vocab_size
    sosWord := sosWord
    eosWord := eosWord
    prepMem := prepMem
    decFull := decFull
    Y := []
    YHat := [] }

/-! ## Greedy autoregressive decoding (`Transformer.validation_step`) -/

/-- `torch.argmax` over the logit vector `f` restricted to indices below
`V`: the smallest index attaining the maximum (torch returns the first
maximal index). -/
def argmaxIdx (f : ℕ → ℚ) (V : ℕ) : ℕ :=
  (List.range V).foldl (fun best v => if f v > f best then v else best) 0

/-- `torch.topk(k=1)` on the logit vector: the maximal value together with
the smallest index attaining it (same selection as `argmaxIdx`). -/
def topk1 (f : ℕ → ℚ) (V : ℕ) : ℚ × ℕ :=
  (f (argmaxIdx f V), argmaxIdx f V)

/-- One greedy selection: the argmax over the vocabulary of the decoder's
logits at the *last* target position
(`self.decoder(...)[0, :, -1].argmax(dim=-1)`). -/
def selTok {Img Mem : Type} (t : Transformer Img Mem) (mem : Mem)
    (tgt : List ℕ) : ℕ :=
  argmaxIdx (fun v => t.decFull tgt mem v (tgt.length - 1)) t.vocab_size

/-- The `for _ in range(self.max_seq_len)` loop of
`Transformer.validation_step` (fuel = remaining iterations).  Returns the
accumulated output words, the final decoding sequence `y_in`, and the
trace of `y_in` values fed to the decoder (one per executed iteration).
Each iteration greedily selects a token, appends its word to the output,
stops if the word is the `EOS_TOKEN` (without extending `y_in`), and
otherwise appends the token index to `y_in`. -/
def decodeAux {Img Mem : Type} (t : Transformer Img Mem) (mem : Mem) :
    ℕ → List ℕ → List String → List (List ℕ) →
      List String × List ℕ × List (List ℕ)
  | 0, y_in, acc, calls => (acc, y_in, calls)
  | fuel + 1, y_in, acc, calls =>
    let tok := selTok t mem y_in
    let wd := t.i2w tok
    if wd = t.eosWord then (acc ++ [wd], y_in, calls ++ [y_in])
    else decodeAux t mem fuel (y_in ++ [tok]) (acc ++ [wd]) (calls ++ [y_in])

/-- The predicted word sequence of `validation_step`, starting the loop
from the decoding sequence `[w2i[SOS_TOKEN]]`. -/
def validation_decode {Img Mem : Type} (t : Transformer Img Mem)
    (mem : Mem) : List String :=
  (decodeAux t mem t.max_seq_len [t.w2i t.sosWord] [] []).1

/-- The final decoding sequence `y_in` after the loop of
`validation_step`. -/
def validationYIn {Img Mem : Type} (t : Transformer Img Mem)
    (mem : Mem) : List ℕ :=
  (decodeAux t mem t.max_seq_len [t.w2i t.sosWord] [] []).2.1

/-- The trace of decoding sequences fed to the decoder during the loop of
`validation_step`. -/
def validationCalls {Img Mem : Type} (t : Transformer Img Mem)
    (mem : Mem) : List (List ℕ) :=
  (decodeAux t mem t.max_seq_len [t.w2i t.sosWord] [] []).2.2

/-- `Transformer.validation_step` on a batch `(x, y)`: asserts batch size
1 (`none` models the assertion failure), runs the autoregressive decoding
loop on the prepared memory, decodes the ground truth `y[0][1:]` through
`ytest_i2w` (stripping the start token), and appends both sequences to the
accumulators. -/
def validation_step {Img Mem : Type} (t : Transformer Img Mem)
    (x : List Img) (y : List (List ℕ)) : Option (Transformer Img Mem) :=
  if x.length = 1 then
    match y.head? with
    | none => none
    | some y0 =>
      let mem := t.prepMem x
      let yhat := validation_decode t mem
      let truth := (y0.drop 1).map t.ytest_i2w
      some { t with Y := t.Y ++ [truth], YHat := t.YHat ++ [yhat] }
  else none

/-! ## Probability-recording decoding variant
(`Transformer.get_pred_seq_and_pred_prob_seq`) -/

/-- The decoding loop of `get_pred_seq_and_pred_prob_seq`: identical
control flow, selecting via `topk(k=1)` and additionally recording the
top-1 score of every emitted word. -/
def predAux {Img Mem : Type} (t : Transformer Img Mem) (mem : Mem) :
    ℕ → List ℕ → List String → List ℚ → List String × List ℚ
  | 0, _, acc, accp => (acc, accp)
  | fuel + 1, y_in, acc, accp =>
    let pt := topk1 (fun v => t.decFull y_in mem v (y_in.length - 1)) t.vocab_size
    let wd := t.i2w pt.2
    if wd = t.eosWord then (acc ++ [wd], accp ++ [pt.1])
    else predAux t mem fuel (y_in ++ [pt.2]) (acc ++ [wd]) (accp ++ [pt.1])

/-- `Transformer.get_pred_seq_and_pred_prob_seq` run on the prepared
decoder memory: word sequence together with one top-1 score per word. -/
def get_pred_seq_and_pred_prob_seq {Img Mem : Type}
    (t : Transformer Img Mem) (mem : Mem) : List String × List ℚ :=
  predAux t mem t.max_seq_len [t.w2i t.sosWord] [] []

/-! ## Teacher-forcing corruptor (`Transformer.apply_teacher_forcing`)

The Python code clones the batch tensor and mutates the clone cell by
cell: for every `(i, j)` it draws `random.random()` and, when the draw is
below `teacher_forcing_prob` *and* the original cell `y[i, j]` is not the
padding index, overwrites the clone's cell with
`random.randint(0, len(self.w2i) - 1)`. -/

/-- The body of the inner loop at cell `(i, j)`: `yid` is the id of the
original batch `y`, `rid` the id of the clone `y_errored`, `hi` the value
`len(self.w2i) - 1`. -/
def tfCell (p : ℚ) (pad hi yid rid i j : ℕ) (s : PyHeap × PyRandom) :
    PyHeap × PyRandom :=
  let r := pyRandom s.2
  if r.1 < p ∧ getCell (s.1.store yid) i j ≠ pad then
    let u := pyRandint r.2 hi
    (heapSet s.1 rid i j u.1, u.2)
  else (s.1, r.2)

/-- The inner loop `for j in range(y_errored.size(1))`, over an explicit
list of column indices. -/
def tfRow (p : ℚ) (pad hi yid rid i : ℕ) :
    List ℕ → PyHeap × PyRandom → PyHeap × PyRandom
  | [], s => s
  | j :: js, s => tfRow p pad hi yid rid i js (tfCell p pad hi yid rid i j s)

/-- The outer loop `for i in range(y_errored.size(0))`, over an explicit
list of row indices; each row iterates over the columns of the original
batch `y` (tensors are rectangular, so every row has the same width). -/
def tfRows (p : ℚ) (pad hi yid rid : ℕ) (y : List (List ℕ)) :
    List ℕ → PyHeap × PyRandom → PyHeap × PyRandom
  | [], s => s
  | i :: is, s =>
    tfRows p pad hi yid rid y is
      (tfRow p pad hi yid rid i (List.range (y.getD i []).length) s)

/-- `Transformer.apply_teacher_forcing`: clone the batch tensor with id
`yid`, run the corruption loops on the clone, and return the clone's id
together with the final heap and random source. -/
def apply_teacher_forcing {Img Mem : Type} (t : Transformer Img Mem)
    (h : PyHeap) (yid : ℕ) (g : PyRandom) : ℕ × PyHeap × PyRandom :=
  let c := heapClone h yid
  let y := h.store yid
  let s := tfRows t.teacher_forcing_prob t.padding_idx (t.vocab_size - 1)
    yid c.1 y (List.range y.length) (c.2, g)
  (c.1, s)

/-! ## Epoch prediction lifecycle (`Transformer.on_validation_epoch_end`)

Metric computation (`utils.metrics.compute_metrics`) is an external
collaborator, passed in as a total function `cm`.  When
`print_random_samples` is true the Python code calls
`random.randint(0, len(self.Y) - 1)` and indexes both accumulators; with
empty accumulators `randint(0, -1)` raises `ValueError` (and an index
beyond either accumulator would raise `IndexError`) — both failures are
modelled as `none`, in which case the accumulators are *not* cleared. -/

def on_validation_epoch_end {Img Mem : Type} (t : Transformer Img Mem)
    (cm : List (List String) → List (List String) → List (String × ℚ))
    (print_random_samples : Bool) (g : PyRandom) :
    Option (Transformer Img Mem × List (String × ℚ) × PyRandom) :=
  let metrics := cm t.Y t.YHat
  if print_random_samples then
    match t.Y.length with
    | 0 => none
    | n + 1 =>
      let d := pyRandint g n
      match t.Y.get? d.1, t.YHat.get? d.1 with
      | some _, some _ => some ({ t with Y := [], YHat := [] }, metrics, d.2)
      | _, _ => none
  else some ({ t with Y := [], YHat := [] }, metrics, g)

/-! ## The specification's greedy-decoding state machine

Spec §4.5 describes the loop as a state machine: starting from the
decoding sequence `[START]`, each step greedily extends the trajectory by
the argmax token.  `trajFrom y k` is the decoding sequence after `k`
transitions from `y`; `wordFrom y k` the word emitted at step `k`;
`stopCount y fuel` the number of words the machine emits before stopping
(first END word, or fuel exhaustion); `eosHit` whether it stopped on the
END marker. -/

def trajFrom {Img Mem : Type} (t : Transformer Img Mem) (mem : Mem) :
    List ℕ → ℕ → List ℕ
  | y, 0 => y
  | y, k + 1 => trajFrom t mem (y ++ [selTok t mem y]) k

def wordFrom {Img Mem : Type} (t : Transformer Img Mem) (mem : Mem)
    (y : List ℕ) (k : ℕ) : String :=
  t.i2w (selTok t mem (trajFrom t mem y k))

def stopCount {Img Mem : Type} (t : Transformer Img Mem) (mem : Mem) :
    List ℕ → ℕ → ℕ
  | _, 0 => 0
  | y, fuel + 1 =>
    if t.i2w (selTok t mem y) = t.eosWord then 1
    else 1 + stopCount t mem (y ++ [selTok t mem y]) fuel

def eosHit {Img Mem : Type} (t : Transformer Img Mem) (mem : Mem) :
    List ℕ → ℕ → Bool
  | _, 0 => false
  | y, fuel + 1 =>
    if t.i2w (selTok t mem y) = t.eosWord then true
    else eosHit t mem (y ++ [selTok t mem y]) fuel

/-- The machine's trajectory started, as the spec prescribes, from
`[START token]`. -/
def specTraj {Img Mem : Type} (t : Transformer Img Mem) (mem : Mem)
    (k : ℕ) : List ℕ :=
  trajFrom t mem [t.w2i t.sosWord] k

/-- The word emitted at step `k` of the machine started from
`[START token]`. -/
def specWord {Img Mem : Type} (t : Transformer Img Mem) (mem : Mem)
    (k : ℕ) : String :=
  wordFrom t mem [t.w2i t.sosWord] k

/-- Number of words emitted by the machine within the `max_seq_len`
bound. -/
def specStop {Img Mem : Type} (t : Transformer Img Mem) (mem : Mem) : ℕ :=
  stopCount t mem [t.w2i t.sosWord] t.max_seq_len

/-- Whether the machine stopped on the END marker (rather than on the
length bound). -/
def specEosHit {Img Mem : Type} (t : Transformer Img Mem) (mem : Mem) :
    Bool :=
  eosHit t mem [t.w2i t.sosWord] t.max_seq_len

/-! ### Operational semantics of the decoding loop, as a relation

`DecStepRel t mem fuel y acc out` holds when one execution of the loop of
`validation_step`, entered with `fuel` remaining iterations, decoding
sequence `y` and already-emitted words `acc`, can finish with output
`out`.  This presents the loop as a transition relation, so that the
determinism of greedy decoding (any two runs agree) is a theorem about
*all* runs rather than a definitional identity. -/

inductive DecStepRel {Img Mem : Type} (t : Transformer Img Mem) (mem : Mem) :
    ℕ → List ℕ → List String → List String → Prop where
  | fuelExhausted (y : List ℕ) (acc : List String) :
      DecStepRel t mem 0 y acc acc
  | eosStop (fuel : ℕ) (y : List ℕ) (acc : List String)
      (heos : t.i2w (selTok t mem y) = t.eosWord) :
      DecStepRel t mem (fuel + 1) y acc (acc ++ [t.i2w (selTok t mem y)])
  | cont (fuel : ℕ) (y : List ℕ) (acc : List String) (out : List String)
      (hne : t.i2w (selTok t mem y) ≠ t.eosWord)
      (hrec : DecStepRel t mem fuel (y ++ [selTok t mem y])
        (acc ++ [t.i2w (selTok t mem y)]) out) :
      DecStepRel t mem (fuel + 1) y acc out

/-- A complete run of the inference loop: `max_seq_len` fuel, starting
from `[START token]` with no emitted words. -/
def ValRun {Img Mem : Type} (t : Transformer Img Mem) (mem : Mem)
    (out : List String) : Prop :=
  DecStepRel t mem t.max_seq_len [t.w2i t.sosWord] [] out

/-! ## Concrete instances used to witness the theorems

`demoModel` realises the end-to-end scenario of spec §8: vocabulary
`{PAD:0, SOS:1, EOS:2, a:3, b:4}` and a decoder that predicts `a`, then
`b`, then `EOS`. -/

def demoVocab : List String := ["<PAD>", "<SOS>", "<EOS>", "a", "b"]

def demoModel : Transformer Unit Unit :=
  { w2i := fun s =>
      if s = "<SOS>" then 1 else if s = "<EOS>" then 2
      else if s = "a" then 3 else if s = "b" then 4 else 0
    i2w := fun i => demoVocab.getD i "<PAD>"
    ytest_i2w := fun i => demoVocab.getD i "<PAD>"
    padding_idx := 0
    max_seq_len := 10
    teacher_forcing_prob := 1
    vocab_size := 5
    sosWord := "<SOS>"
    eosWord := "<EOS>"
    prepMem := fun _ => ()
    decFull := fun _ _ v pos => if v = [3, 4, 2].getD pos 0 then 1 else 0
    Y := []
    YHat := [] }

def demoRandom : PyRandom :=
  { rfun := fun _ => 0, ifun := fun _ _ => 0, rkey := 0, ikey := 0 }

def demoHeap : PyHeap := { store := fun _ => [[3, 0]], nextId := 1 }

def demoMetrics : List (List String) → List (List String) →
    List (String × ℚ) := fun _ _ => []

def demoModelFilled : Transformer Unit Unit :=
  { demoModel with Y := [["a"]], YHat := [["b"]] }

def demoGrid : Tensor4 ℚ :=
  ⟨1, 1, 2, 3, fun _ _ h w => ((h * 3 + w : ℕ) : ℚ)⟩

theorem denExp_length (C : ℕ) : (denExp C).length = (C / 2 + 1) / 2 := by
  unfold denExp arange2
  rw [List.length_map, List.length_map, List.length_range]

theorem denExp_getD (C j : ℕ) (hj : j < (C / 2 + 1) / 2) :
    (denExp C).getD j 0 = ((2 * j : ℕ) : ℚ) / (C : ℚ) := by
  unfold denExp arange2
  rw [List.getD_eq_getElem?_getD, List.getElem?_map, List.getElem?_map,
    List.getElem?_range hj]
  rfl

theorem denExp_eight : denExp 8 = [0, (1 : ℚ) / 4] := by
  simp [denExp, arange2, List.range_succ]
  norm_num

theorem specDenExp_eight : specDenExp 8 = [0, (1 : ℚ) / 2] := by
  simp [specDenExp, arange2, List.range_succ]
  norm_num

theorem demoRandom_wf : WFRandom demoRandom :=
  ⟨fun _ => ⟨le_refl 0, by norm_num [demoRandom]⟩, fun _ _ => Nat.zero_le _⟩

theorem trajFrom_zero {Img Mem : Type} (t : Transformer Img Mem)
    (mem : Mem) (y : List ℕ) : trajFrom t mem y 0 = y := rfl

theorem trajFrom_succ {Img Mem : Type} (t : Transformer Img Mem)
    (mem : Mem) (y : List ℕ) (k : ℕ) :
    trajFrom t mem y (k + 1) = trajFrom t mem (y ++ [selTok t mem y]) k :=
  rfl

theorem wordFrom_succ {Img Mem : Type} (t : Transformer Img Mem)
    (mem : Mem) (y : List ℕ) (k : ℕ) :
    wordFrom t mem y (k + 1) = wordFrom t mem (y ++ [selTok t mem y]) k :=
  rfl

theorem trajFrom_length {Img Mem : Type} (t : Transformer Img Mem)
    (mem : Mem) : ∀ (k : ℕ) (y : List ℕ),
    (trajFrom t mem y k).length = y.length + k := by
  intro k
  induction k with
  | zero => intro y; simp [trajFrom]
  | succ n ih =>
    intro y
    rw [trajFrom_succ, ih]
    simp
    omega

theorem stopCount_le_fuel {Img Mem : Type} (t : Transformer Img Mem)
    (mem : Mem) : ∀ (fuel : ℕ) (y : List ℕ),
    stopCount t mem y fuel ≤ fuel := by
  intro fuel
  induction fuel with
  | zero => intro y; simp [stopCount]
  | succ n ih =>
    intro y
    rw [stopCount]
    split
    · omega
    · have := ih (y ++ [selTok t mem y])
      omega

theorem eosHit_stopCount_pos {Img Mem : Type} (t : Transformer Img Mem)
    (mem : Mem) : ∀ (fuel : ℕ) (y : List ℕ),
    eosHit t mem y fuel = true → 1 ≤ stopCount t mem y fuel := by
  intro fuel
  induction fuel with
  | zero => intro y h; simp [eosHit] at h
  | succ n ih =>
    intro y h
    rw [stopCount]
    split
    · omega
    · omega

/-- The decoding loop of `validation_step`, characterised by the spec's
state machine: starting the loop at decoding sequence `y` with `fuel`
remaining iterations, the emitted words are the machine's emitted words,
the final decoding sequence is the machine's trajectory (one transition
shorter when the END marker was hit, since the END token index is never
appended), and the decoder is called exactly on the successive
trajectories. -/
theorem decodeAux_characterization {Img Mem : Type}
    (t : Transformer Img Mem) (mem : Mem) :
    ∀ (fuel : ℕ) (y : List ℕ) (acc : List String) (calls : List (List ℕ)),
    decodeAux t mem fuel y acc calls =
      (acc ++ (List.range (stopCount t mem y fuel)).map (wordFrom t mem y),
       trajFrom t mem y
         (stopCount t mem y fuel -
           (if eosHit t mem y fuel = true then 1 else 0)),
       calls ++
         (List.range (stopCount t mem y fuel)).map (trajFrom t mem y)) := by
  intro fuel
  induction fuel with
  | zero =>
    intro y acc calls
    simp [decodeAux, stopCount, eosHit, trajFrom]
  | succ n ih =>
    intro y acc calls
    rw [decodeAux]
    by_cases heos : t.i2w (selTok t mem y) = t.eosWord
    · rw [if_pos heos]
      have hs : stopCount t mem y (n + 1) = 1 := by rw [stopCount, if_pos heos]
      have he : eosHit t mem y (n + 1) = true := by rw [eosHit, if_pos heos]
      rw [hs, he]
      have hr1 : List.range 1 = [0] := rfl
      have hw0 : wordFrom t mem y 0 = t.i2w (selTok t mem y) := rfl
      have ht0 : trajFrom t mem y 0 = y := rfl
      simp only [hr1, List.map_cons, List.map_nil, hw0, ht0, if_true]
    · rw [if_neg heos]
      rw [ih (y ++ [selTok t mem y]) (acc ++ [t.i2w (selTok t mem y)])
        (calls ++ [y])]
      have hs : stopCount t mem y (n + 1) =
          1 + stopCount t mem (y ++ [selTok t mem y]) n := by
        rw [stopCount, if_neg heos]
      have he : eosHit t mem y (n + 1) =
          eosHit t mem (y ++ [selTok t mem y]) n := by
        rw [eosHit, if_neg heos]
      rw [hs, he]
      refine Prod.ext ?_ (Prod.ext ?_ ?_)
      · show acc ++ [t.i2w (selTok t mem y)] ++
          (List.range (stopCount t mem (y ++ [selTok t mem y]) n)).map
            (wordFrom t mem (y ++ [selTok t mem y])) =
          acc ++ (List.range (1 + stopCount t mem (y ++ [selTok t mem y]) n)).map
            (wordFrom t mem y)
        rw [Nat.add_comm 1, List.range_succ_eq_map, List.map_cons,
          List.map_map]
        have hw0 : wordFrom t mem y 0 = t.i2w (selTok t mem y) := rfl
        have hwc : wordFrom t mem y ∘ Nat.succ =
            wordFrom t mem (y ++ [selTok t mem y]) := by
          funext k
          exact wordFrom_succ t mem y k
        rw [hw0, hwc, List.append_assoc]
        rfl
      · show trajFrom t mem (y ++ [selTok t mem y])
          (stopCount t mem (y ++ [selTok t mem y]) n -
            (if eosHit t mem (y ++ [selTok t mem y]) n = true then 1 else 0)) =
          trajFrom t mem y
          (1 + stopCount t mem (y ++ [selTok t mem y]) n -
            (if eosHit t mem (y ++ [selTok t mem y]) n = true then 1 else 0))
        have hb : (if eosHit t mem (y ++ [selTok t mem y]) n = true
            then 1 else 0) ≤ stopCount t mem (y ++ [selTok t mem y]) n := by
          split
          · exact eosHit_stopCount_pos t mem n _ (by assumption)
          · omega
        have harith : 1 + stopCount t mem (y ++ [selTok t mem y]) n -
            (if eosHit t mem (y ++ [selTok t mem y]) n = true then 1 else 0) =
            (stopCount t mem (y ++ [selTok t mem y]) n -
              (if eosHit t mem (y ++ [selTok t mem y]) n = true
                then 1 else 0)) + 1 := by omega
        rw [harith, trajFrom_succ]
      · show calls ++ [y] ++
          (List.range (stopCount t mem (y ++ [selTok t mem y]) n)).map
            (trajFrom t mem (y ++ [selTok t mem y])) =
          calls ++ (List.range (1 + stopCount t mem (y ++ [selTok t mem y]) n)).map
            (trajFrom t mem y)
        rw [Nat.add_comm 1, List.range_succ_eq_map, List.map_cons,
          List.map_map]
        have ht0 : trajFrom t mem y 0 = y := rfl
        have htc : trajFrom t mem y ∘ Nat.succ =
            trajFrom t mem (y ++ [selTok t mem y]) := by
          funext k
          exact trajFrom_succ t mem y k
        rw [ht0, htc, List.append_assoc]
        rfl

/-- When the machine stops on the END marker, the last emitted word is the
END marker and no earlier emitted word is. -/
theorem eosHit_true_characterization {Img Mem : Type}
    (t : Transformer Img Mem) (mem : Mem) :
    ∀ (fuel : ℕ) (y : List ℕ), eosHit t mem y fuel = true →
    wordFrom t mem y (stopCount t mem y fuel - 1) = t.eosWord ∧
      ∀ k, k < stopCount t mem y fuel - 1 → wordFrom t mem y k ≠ t.eosWord := by
  intro fuel
  induction fuel with
  | zero => intro y h; simp [eosHit] at h
  | succ n ih =>
    intro y h
    by_cases heos : t.i2w (selTok t mem y) = t.eosWord
    · have hs : stopCount t mem y (n + 1) = 1 := by rw [stopCount, if_pos heos]
      rw [hs]
      constructor
      · exact heos
      · intro k hk
        omega
    · have hs : stopCount t mem y (n + 1) =
          1 + stopCount t mem (y ++ [selTok t mem y]) n := by
        rw [stopCount, if_neg heos]
      have he : eosHit t mem (y ++ [selTok t mem y]) n = true := by
        rw [eosHit, if_neg heos] at h
        exact h
      obtain ⟨h1, h2⟩ := ih (y ++ [selTok t mem y]) he
      have hpos := eosHit_stopCount_pos t mem n (y ++ [selTok t mem y]) he
      rw [hs]
      constructor
      · have harith : 1 + stopCount t mem (y ++ [selTok t mem y]) n - 1 =
            (stopCount t mem (y ++ [selTok t mem y]) n - 1) + 1 := by omega
        rw [harith, wordFrom_succ]
        exact h1
      · intro k hk
        match k with
        | 0 => exact heos
        | k' + 1 =>
          rw [wordFrom_succ]
          exact h2 k' (by omega)

/-! ### Frame and characterization lemmas for the teacher-forcing loops -/

theorem getD_set_ne {α : Type} (l : List α) (i i0 : ℕ) (a d : α)
    (h : i0 ≠ i) : (l.set i a).getD i0 d = l.getD i0 d := by
  rw [List.getD_eq_getElem?_getD, List.getElem?_set_ne (fun he => h he.symm),
    ← List.getD_eq_getElem?_getD]

theorem getD_set_self {α : Type} (l : List α) (i : ℕ) (a d : α)
    (h : i < l.length) : (l.set i a).getD i d = a := by
  rw [List.getD_eq_getElem?_getD, List.getElem?_set_self h]
  rfl

theorem getCell_setCell_ne (l : List (List ℕ)) (i j v i0 j0 : ℕ)
    (h : i0 ≠ i ∨ j0 ≠ j) :
    getCell (setCell l i j v) i0 j0 = getCell l i0 j0 := by
  unfold getCell setCell
  by_cases hi : i0 = i
  · subst hi
    have hj : j0 ≠ j := by tauto
    by_cases hlen : i0 < l.length
    · rw [getD_set_self l i0 _ _ hlen, getD_set_ne _ j j0 v 0 hj]
    · rw [List.set_eq_of_length_le (by omega)]
  · rw [getD_set_ne l i i0 _ _ hi]

theorem getCell_setCell_self (l : List (List ℕ)) (i j v : ℕ)
    (hi : i < l.length) (hj : j < (l.getD i []).length) :
    getCell (setCell l i j v) i j = v := by
  unfold getCell setCell
  rw [getD_set_self l i _ _ hi, getD_set_self _ j v 0 hj]

theorem setCell_length (l : List (List ℕ)) (i j v : ℕ) :
    (setCell l i j v).length = l.length := by
  unfold setCell
  exact List.length_set l i _

theorem setCell_row_length (l : List (List ℕ)) (i j v i0 : ℕ) :
    ((setCell l i j v).getD i0 []).length = (l.getD i0 []).length := by
  unfold setCell
  by_cases hi : i0 = i
  · subst hi
    by_cases hlen : i0 < l.length
    · rw [getD_set_self l i0 _ _ hlen]
      simp
    · rw [List.set_eq_of_length_le (by omega)]
  · rw [getD_set_ne l i i0 _ _ hi]

/-- Case equation for `tfCell` when the corruption condition holds. -/
theorem tfCell_eq_pos (p : ℚ) (pad hi yid rid i j : ℕ)
    (s : PyHeap × PyRandom)
    (hc : s.2.rfun s.2.rkey < p ∧ getCell (s.1.store yid) i j ≠ pad) :
    tfCell p pad hi yid rid i j s =
      (heapSet s.1 rid i j (s.2.ifun s.2.ikey hi),
        { s.2 with rkey := s.2.rkey + 1, ikey := s.2.ikey + 1 }) := by
  simp only [tfCell, pyRandom, pyRandint]
  rw [if_pos hc]

/-- Case equation for `tfCell` when the corruption condition fails. -/
theorem tfCell_eq_neg (p : ℚ) (pad hi yid rid i j : ℕ)
    (s : PyHeap × PyRandom)
    (hc : ¬(s.2.rfun s.2.rkey < p ∧ getCell (s.1.store yid) i j ≠ pad)) :
    tfCell p pad hi yid rid i j s = (s.1, { s.2 with rkey := s.2.rkey + 1 }) := by
  simp only [tfCell, pyRandom, pyRandint]
  rw [if_neg hc]

theorem tfCell_gen (p : ℚ) (pad hi yid rid i j : ℕ) (s : PyHeap × PyRandom) :
    ((tfCell p pad hi yid rid i j s).2).rfun = s.2.rfun ∧
      ((tfCell p pad hi yid rid i j s).2).ifun = s.2.ifun := by
  by_cases hc : s.2.rfun s.2.rkey < p ∧ getCell (s.1.store yid) i j ≠ pad
  · rw [tfCell_eq_pos p pad hi yid rid i j s hc]
    exact ⟨rfl, rfl⟩
  · rw [tfCell_eq_neg p pad hi yid rid i j s hc]
    exact ⟨rfl, rfl⟩

theorem WFRandom_of_streams_eq (g g' : PyRandom) (hr : g'.rfun = g.rfun)
    (hif : g'.ifun = g.ifun) (h : WFRandom g) : WFRandom g' := by
  refine ⟨fun k => ?_, fun k hi => ?_⟩
  · rw [hr]; exact h.1 k
  · rw [hif]; exact h.2 k hi

theorem tfCell_WF (p : ℚ) (pad hi yid rid i j : ℕ) (s : PyHeap × PyRandom)
    (h : WFRandom s.2) : WFRandom (tfCell p pad hi yid rid i j s).2 :=
  WFRandom_of_streams_eq s.2 _ (tfCell_gen p pad hi yid rid i j s).1
    (tfCell_gen p pad hi yid rid i j s).2 h

theorem tfCell_store_ne (p : ℚ) (pad hi yid rid i j tid : ℕ)
    (s : PyHeap × PyRandom) (hne : tid ≠ rid) :
    ((tfCell p pad hi yid rid i j s).1).store tid = s.1.store tid := by
  by_cases hc : s.2.rfun s.2.rkey < p ∧ getCell (s.1.store yid) i j ≠ pad
  · rw [tfCell_eq_pos p pad hi yid rid i j s hc]
    exact Function.update_noteq hne _ _
  · rw [tfCell_eq_neg p pad hi yid rid i j s hc]

theorem tfCell_cell_frame (p : ℚ) (pad hi yid rid i j i0 j0 : ℕ)
    (s : PyHeap × PyRandom) (hne : i0 ≠ i ∨ j0 ≠ j) :
    getCell (((tfCell p pad hi yid rid i j s).1).store rid) i0 j0 =
      getCell (s.1.store rid) i0 j0 := by
  by_cases hc : s.2.rfun s.2.rkey < p ∧ getCell (s.1.store yid) i j ≠ pad
  · rw [tfCell_eq_pos p pad hi yid rid i j s hc]
    simp only [heapSet, Function.update_same]
    exact getCell_setCell_ne _ i j _ i0 j0 hne
  · rw [tfCell_eq_neg p pad hi yid rid i j s hc]

theorem tfCell_lengths (p : ℚ) (pad hi yid rid i j : ℕ)
    (s : PyHeap × PyRandom) :
    (((tfCell p pad hi yid rid i j s).1).store rid).length =
        (s.1.store rid).length ∧
      ∀ i0, ((((tfCell p pad hi yid rid i j s).1).store rid).getD i0 []).length =
        ((s.1.store rid).getD i0 []).length := by
  by_cases hc : s.2.rfun s.2.rkey < p ∧ getCell (s.1.store yid) i j ≠ pad
  · rw [tfCell_eq_pos p pad hi yid rid i j s hc]
    simp only [heapSet, Function.update_same]
    exact ⟨setCell_length _ i j _, fun i0 => setCell_row_length _ i j _ i0⟩
  · rw [tfCell_eq_neg p pad hi yid rid i j s hc]
    exact ⟨rfl, fun _ => rfl⟩

theorem tfCell_pad (p : ℚ) (pad hi yid rid i j : ℕ) (s : PyHeap × PyRandom)
    (hpad : getCell (s.1.store yid) i j = pad) :
    (tfCell p pad hi yid rid i j s).1 = s.1 := by
  rw [tfCell_eq_neg p pad hi yid rid i j s (by simp [hpad])]

theorem tfCell_p0 (p : ℚ) (pad hi yid rid i j : ℕ) (s : PyHeap × PyRandom)
    (hwf : WFRandom s.2) (hp : p = 0) :
    (tfCell p pad hi yid rid i j s).1 = s.1 := by
  have hnot : ¬(s.2.rfun s.2.rkey < p ∧ getCell (s.1.store yid) i j ≠ pad) := by
    intro hcond
    have h0 := (hwf.1 s.2.rkey).1
    rw [hp] at hcond
    exact absurd hcond.1 (not_lt.mpr h0)
  rw [tfCell_eq_neg p pad hi yid rid i j s hnot]

theorem tfRow_gen (p : ℚ) (pad hi yid rid i : ℕ) :
    ∀ (js : List ℕ) (s : PyHeap × PyRandom),
    ((tfRow p pad hi yid rid i js s).2).rfun = s.2.rfun ∧
      ((tfRow p pad hi yid rid i js s).2).ifun = s.2.ifun := by
  intro js
  induction js with
  | nil => intro s; exact ⟨rfl, rfl⟩
  | cons j rest ih =>
    intro s
    rw [tfRow]
    obtain ⟨h1, h2⟩ := ih (tfCell p pad hi yid rid i j s)
    obtain ⟨h3, h4⟩ := tfCell_gen p pad hi yid rid i j s
    exact ⟨h1.trans h3, h2.trans h4⟩

theorem tfRow_WF (p : ℚ) (pad hi yid rid i : ℕ) (js : List ℕ)
    (s : PyHeap × PyRandom) (h : WFRandom s.2) :
    WFRandom (tfRow p pad hi yid rid i js s).2 :=
  WFRandom_of_streams_eq s.2 _ (tfRow_gen p pad hi yid rid i js s).1
    (tfRow_gen p pad hi yid rid i js s).2 h

theorem tfRow_store_ne (p : ℚ) (pad hi yid rid i tid : ℕ) (hne : tid ≠ rid) :
    ∀ (js : List ℕ) (s : PyHeap × PyRandom),
    ((tfRow p pad hi yid rid i js s).1).store tid = s.1.store tid := by
  intro js
  induction js with
  | nil => intro s; rfl
  | cons j rest ih =>
    intro s
    rw [tfRow, ih]
    exact tfCell_store_ne p pad hi yid rid i j tid s hne

theorem tfRow_cell_frame (p : ℚ) (pad hi yid rid i i0 j0 : ℕ) :
    ∀ (js : List ℕ) (s : PyHeap × PyRandom), (i0 ≠ i ∨ j0 ∉ js) →
    getCell (((tfRow p pad hi yid rid i js s).1).store rid) i0 j0 =
      getCell (s.1.store rid) i0 j0 := by
  intro js
  induction js with
  | nil => intro s _; rfl
  | cons j rest ih =>
    intro s hne
    rw [tfRow]
    have hrest : i0 ≠ i ∨ j0 ∉ rest := by
      rcases hne with h | h
      · exact Or.inl h
      · exact Or.inr (fun hc => h (List.mem_cons_of_mem j hc))
    rw [ih _ hrest]
    refine tfCell_cell_frame p pad hi yid rid i j i0 j0 s ?_
    rcases hne with h | h
    · exact Or.inl h
    · exact Or.inr (fun hc => h (hc ▸ List.mem_cons_self j rest))

theorem tfRow_lengths (p : ℚ) (pad hi yid rid i : ℕ) :
    ∀ (js : List ℕ) (s : PyHeap × PyRandom),
    (((tfRow p pad hi yid rid i js s).1).store rid).length =
        (s.1.store rid).length ∧
      ∀ i0, ((((tfRow p pad hi yid rid i js s).1).store rid).getD i0 []).length =
        ((s.1.store rid).getD i0 []).length := by
  intro js
  induction js with
  | nil => intro s; exact ⟨rfl, fun _ => rfl⟩
  | cons j rest ih =>
    intro s
    rw [tfRow]
    obtain ⟨h1, h2⟩ := ih (tfCell p pad hi yid rid i j s)
    obtain ⟨h3, h4⟩ := tfCell_lengths p pad hi yid rid i j s
    exact ⟨h1.trans h3, fun i0 => (h2 i0).trans (h4 i0)⟩

theorem tfRow_pad (p : ℚ) (pad hi yid rid i j0 : ℕ) (hne : yid ≠ rid) :
    ∀ (js : List ℕ) (s : PyHeap × PyRandom),
    getCell (s.1.store yid) i j0 = pad →
    getCell (((tfRow p pad hi yid rid i js s).1).store rid) i j0 =
      getCell (s.1.store rid) i j0 := by
  intro js
  induction js with
  | nil => intro s _; rfl
  | cons j rest ih =>
    intro s hpad
    rw [tfRow]
    by_cases hj : j = j0
    · subst hj
      have hkeep := tfCell_pad p pad hi yid rid i j s hpad
      have hpad2 : getCell ((tfCell p pad hi yid rid i j s).1.store yid) i j =
          pad := by rw [hkeep]; exact hpad
      rw [ih _ hpad2, hkeep]
    · have hpad2 : getCell ((tfCell p pad hi yid rid i j s).1.store yid) i j0 =
          pad := by
        rw [tfCell_store_ne p pad hi yid rid i j yid s hne]
        exact hpad
      rw [ih _ hpad2]
      exact tfCell_cell_frame p pad hi yid rid i j i j0 s
        (Or.inr (fun hc => hj hc.symm))

theorem tfRow_p0 (p : ℚ) (pad hi yid rid i : ℕ) (hp : p = 0) :
    ∀ (js : List ℕ) (s : PyHeap × PyRandom), WFRandom s.2 →
    (tfRow p pad hi yid rid i js s).1 = s.1 := by
  intro js
  induction js with
  | nil => intro s _; rfl
  | cons j rest ih =>
    intro s hwf
    rw [tfRow]
    rw [ih _ (tfCell_WF p pad hi yid rid i j s hwf)]
    exact tfCell_p0 p pad hi yid rid i j s hwf hp

/-- Under full corruption (`p = 1`), a non-padding cell of the clone ends
up holding a value drawn from the `randint` stream. -/
theorem tfRow_p1_write (p : ℚ) (pad hi yid rid i j0 : ℕ) (hne : yid ≠ rid)
    (hp : p = 1) :
    ∀ (js : List ℕ) (s : PyHeap × PyRandom), WFRandom s.2 → js.Nodup →
    j0 ∈ js → getCell (s.1.store yid) i j0 ≠ pad →
    i < (s.1.store rid).length →
    j0 < ((s.1.store rid).getD i []).length →
    ∃ k, getCell (((tfRow p pad hi yid rid i js s).1).store rid) i j0 =
      s.2.ifun k hi := by
  intro js
  induction js with
  | nil => intro s _ _ hmem; exact absurd hmem (List.not_mem_nil j0)
  | cons j rest ih =>
    intro s hwf hnd hmem hnp hilen hjlen
    rw [tfRow]
    by_cases hj : j = j0
    · subst hj
      have hwrite : tfCell p pad hi yid rid i j s =
          (heapSet s.1 rid i j (s.2.ifun s.2.ikey hi),
            { s.2 with rkey := s.2.rkey + 1, ikey := s.2.ikey + 1 }) :=
        tfCell_eq_pos p pad hi yid rid i j s
          ⟨by rw [hp]; exact (hwf.1 s.2.rkey).2, hnp⟩
      have hnotin : j ∉ rest := (List.nodup_cons.mp hnd).1
      rw [tfRow_cell_frame p pad hi yid rid i i j rest _ (Or.inr hnotin)]
      rw [hwrite]
      refine ⟨s.2.ikey, ?_⟩
      show getCell ((heapSet s.1 rid i j (s.2.ifun s.2.ikey hi)).store rid)
        i j = s.2.ifun s.2.ikey hi
      unfold heapSet
      simp only [Function.update_same]
      exact getCell_setCell_self _ i j _ hilen hjlen
    · have hmem2 : j0 ∈ rest := by
        rcases List.mem_cons.mp hmem with h | h
        · exact absurd h.symm hj
        · exact h
      have hnd2 : rest.Nodup := (List.nodup_cons.mp hnd).2
      have hwf2 := tfCell_WF p pad hi yid rid i j s hwf
      have hnp2 : getCell ((tfCell p pad hi yid rid i j s).1.store yid) i j0 ≠
          pad := by
        rw [tfCell_store_ne p pad hi yid rid i j yid s hne]
        exact hnp
      obtain ⟨hl1, hl2⟩ := tfCell_lengths p pad hi yid rid i j s
      obtain ⟨k, hk⟩ := ih (tfCell p pad hi yid rid i j s) hwf2 hnd2 hmem2 hnp2
        (by rw [hl1]; exact hilen) (by rw [hl2]; exact hjlen)
      refine ⟨k, ?_⟩
      rw [hk, (tfCell_gen p pad hi yid rid i j s).2]

theorem tfRows_gen (p : ℚ) (pad hi yid rid : ℕ) (y : List (List ℕ)) :
    ∀ (is : List ℕ) (s : PyHeap × PyRandom),
    ((tfRows p pad hi yid rid y is s).2).rfun = s.2.rfun ∧
      ((tfRows p pad hi yid rid y is s).2).ifun = s.2.ifun := by
  intro is
  induction is with
  | nil => intro s; exact ⟨rfl, rfl⟩
  | cons i rest ih =>
    intro s
    rw [tfRows]
    obtain ⟨h1, h2⟩ := ih (tfRow p pad hi yid rid i (List.range (y.getD i []).length) s)
    obtain ⟨h3, h4⟩ := tfRow_gen p pad hi yid rid i (List.range (y.getD i []).length) s
    exact ⟨h1.trans h3, h2.trans h4⟩

theorem tfRows_WF (p : ℚ) (pad hi yid rid : ℕ) (y : List (List ℕ))
    (is : List ℕ) (s : PyHeap × PyRandom) (h : WFRandom s.2) :
    WFRandom (tfRows p pad hi yid rid y is s).2 :=
  WFRandom_of_streams_eq s.2 _ (tfRows_gen p pad hi yid rid y is s).1
    (tfRows_gen p pad hi yid rid y is s).2 h

theorem tfRows_store_ne (p : ℚ) (pad hi yid rid tid : ℕ)
    (y : List (List ℕ)) (hne : tid ≠ rid) :
    ∀ (is : List ℕ) (s : PyHeap × PyRandom),
    ((tfRows p pad hi yid rid y is s).1).store tid = s.1.store tid := by
  intro is
  induction is with
  | nil => intro s; rfl
  | cons i rest ih =>
    intro s
    rw [tfRows, ih]
    exact tfRow_store_ne p pad hi yid rid i tid hne _ s

theorem tfRows_row_frame (p : ℚ) (pad hi yid rid i0 j0 : ℕ)
    (y : List (List ℕ)) :
    ∀ (is : List ℕ) (s : PyHeap × PyRandom), i0 ∉ is →
    getCell (((tfRows p pad hi yid rid y is s).1).store rid) i0 j0 =
      getCell (s.1.store rid) i0 j0 := by
  intro is
  induction is with
  | nil => intro s _; rfl
  | cons i rest ih =>
    intro s hni
    rw [tfRows]
    rw [ih _ (fun hc => hni (List.mem_cons_of_mem i hc))]
    exact tfRow_cell_frame p pad hi yid rid i i0 j0 _ s
      (Or.inl (fun hc => hni (hc ▸ List.mem_cons_self i rest)))

theorem tfRows_lengths (p : ℚ) (pad hi yid rid : ℕ) (y : List (List ℕ)) :
    ∀ (is : List ℕ) (s : PyHeap × PyRandom),
    (((tfRows p pad hi yid rid y is s).1).store rid).length =
        (s.1.store rid).length ∧
      ∀ i0, ((((tfRows p pad hi yid rid y is s).1).store rid).getD i0 []).length =
        ((s.1.store rid).getD i0 []).length := by
  intro is
  induction is with
  | nil => intro s; exact ⟨rfl, fun _ => rfl⟩
  | cons i rest ih =>
    intro s
    rw [tfRows]
    obtain ⟨h1, h2⟩ := ih (tfRow p pad hi yid rid i (List.range (y.getD i []).length) s)
    obtain ⟨h3, h4⟩ := tfRow_lengths p pad hi yid rid i (List.range (y.getD i []).length) s
    exact ⟨h1.trans h3, fun i0 => (h2 i0).trans (h4 i0)⟩

theorem tfRows_pad (p : ℚ) (pad hi yid rid i0 j0 : ℕ) (y : List (List ℕ))
    (hne : yid ≠ rid) :
    ∀ (is : List ℕ) (s : PyHeap × PyRandom),
    getCell (s.1.store yid) i0 j0 = pad →
    getCell (((tfRows p pad hi yid rid y is s).1).store rid) i0 j0 =
      getCell (s.1.store rid) i0 j0 := by
  intro is
  induction is with
  | nil => intro s _; rfl
  | cons i rest ih =>
    intro s hpad
    rw [tfRows]
    have hpad2 : getCell ((tfRow p pad hi yid rid i
        (List.range (y.getD i []).length) s).1.store yid) i0 j0 = pad := by
      rw [tfRow_store_ne p pad hi yid rid i yid hne]
      exact hpad
    rw [ih _ hpad2]
    by_cases hii : i = i0
    · subst hii
      exact tfRow_pad p pad hi yid rid i j0 hne _ s hpad
    · exact tfRow_cell_frame p pad hi yid rid i i0 j0 _ s
        (Or.inl (fun hc => hii hc.symm))

theorem tfRows_p0 (p : ℚ) (pad hi yid rid : ℕ) (y : List (List ℕ))
    (hp : p = 0) :
    ∀ (is : List ℕ) (s : PyHeap × PyRandom), WFRandom s.2 →
    (tfRows p pad hi yid rid y is s).1 = s.1 := by
  intro is
  induction is with
  | nil => intro s _; rfl
  | cons i rest ih =>
    intro s hwf
    rw [tfRows]
    rw [ih _ (tfRow_WF p pad hi yid rid i (List.range (y.getD i []).length) s hwf)]
    exact tfRow_p0 p pad hi yid rid i hp _ s hwf

theorem tfRows_p1_write (p : ℚ) (pad hi yid rid i0 j0 : ℕ)
    (y : List (List ℕ)) (hne : yid ≠ rid) (hp : p = 1) :
    ∀ (is : List ℕ) (s : PyHeap × PyRandom), WFRandom s.2 → is.Nodup →
    i0 ∈ is → j0 < (y.getD i0 []).length →
    getCell (s.1.store yid) i0 j0 ≠ pad →
    i0 < (s.1.store rid).length →
    j0 < ((s.1.store rid).getD i0 []).length →
    ∃ k, getCell (((tfRows p pad hi yid rid y is s).1).store rid) i0 j0 =
      s.2.ifun k hi := by
  intro is
  induction is with
  | nil => intro s _ _ hmem; exact absurd hmem (List.not_mem_nil i0)
  | cons i rest ih =>
    intro s hwf hnd hmem hjw hnp hilen hjlen
    rw [tfRows]
    by_cases hii : i = i0
    · subst hii
      have hnotin : i ∉ rest := (List.nodup_cons.mp hnd).1
      rw [tfRows_row_frame p pad hi yid rid i j0 y rest _ hnotin]
      obtain ⟨k, hk⟩ := tfRow_p1_write p pad hi yid rid i j0 hne hp
        (List.range (y.getD i []).length) s hwf (List.nodup_range _)
        (List.mem_range.mpr hjw) hnp hilen hjlen
      exact ⟨k, hk⟩
    · have hmem2 : i0 ∈ rest := by
        rcases List.mem_cons.mp hmem with h | h
        · exact absurd h.symm hii
        · exact h
      have hnd2 : rest.Nodup := (List.nodup_cons.mp hnd).2
      have hwf2 := tfRow_WF p pad hi yid rid i
        (List.range (y.getD i []).length) s hwf
      have hnp2 : getCell ((tfRow p pad hi yid rid i
          (List.range (y.getD i []).length) s).1.store yid) i0 j0 ≠ pad := by
        rw [tfRow_store_ne p pad hi yid rid i yid hne]
        exact hnp
      obtain ⟨hl1, hl2⟩ := tfRow_lengths p pad hi yid rid i
        (List.range (y.getD i []).length) s
      obtain ⟨k, hk⟩ := ih (tfRow p pad hi yid rid i
          (List.range (y.getD i []).length) s) hwf2 hnd2 hmem2 hjw hnp2
        (by rw [hl1]; exact hilen) (by rw [hl2]; exact hjlen)
      refine ⟨k, ?_⟩
      rw [hk, (tfRow_gen p pad hi yid rid i _ s).2]

/-! ### Loop equivalence lemmas for the probability-recording variant -/

theorem predAux_words_eq {Img Mem : Type} (t : Transformer Img Mem)
    (mem : Mem) : ∀ (fuel : ℕ) (y : List ℕ) (acc : List String)
    (accp : List ℚ) (calls : List (List ℕ)),
    (predAux t mem fuel y acc accp).1 = (decodeAux t mem fuel y acc calls).1 := by
  intro fuel
  induction fuel with
  | zero => intro y acc accp calls; rfl
  | succ n ih =>
    intro y acc accp calls
    rw [predAux, decodeAux]
    simp only [topk1]
    have hsel : argmaxIdx (fun v => t.decFull y mem v (y.length - 1))
        t.vocab_size = selTok t mem y := rfl
    rw [hsel]
    by_cases heos : t.i2w (selTok t mem y) = t.eosWord
    · rw [if_pos heos, if_pos heos]
    · rw [if_neg heos, if_neg heos]
      exact ih _ _ _ _

theorem predAux_probs_length {Img Mem : Type} (t : Transformer Img Mem)
    (mem : Mem) : ∀ (fuel : ℕ) (y : List ℕ) (acc : List String)
    (accp : List ℚ),
    (predAux t mem fuel y acc accp).2.length + acc.length =
      (predAux t mem fuel y acc accp).1.length + accp.length := by
  intro fuel
  induction fuel with
  | zero =>
    intro y acc accp
    simp only [predAux]
    exact Nat.add_comm _ _
  | succ n ih =>
    intro y acc accp
    rw [predAux]
    by_cases heos : t.i2w (topk1 (fun v => t.decFull y mem v (y.length - 1))
        t.vocab_size).2 = t.eosWord
    · rw [if_pos heos]
      simp
      omega
    · rw [if_neg heos]
      have := ih (y ++ [(topk1 (fun v => t.decFull y mem v (y.length - 1))
        t.vocab_size).2]) (acc ++ [t.i2w (topk1 (fun v => t.decFull y mem v
          (y.length - 1)) t.vocab_size).2])
        (accp ++ [(topk1 (fun v => t.decFull y mem v (y.length - 1))
          t.vocab_size).1])
      simp at this
      omega

/-- The loop relation is deterministic: two runs from the same
configuration produce the same output. -/
theorem DecStepRel_det {Img Mem : Type} (t : Transformer Img Mem) (mem : Mem)
    {fuel : ℕ} {y : List ℕ} {acc out1 out2 : List String}
    (h1 : DecStepRel t mem fuel y acc out1)
    (h2 : DecStepRel t mem fuel y acc out2) : out1 = out2 := by
  induction h1 generalizing out2 with
  | fuelExhausted y acc =>
    cases h2 with
    | fuelExhausted => rfl
  | eosStop fuel y acc heos =>
    cases h2 with
    | eosStop => rfl
    | cont _ _ _ _ hne _ => exact absurd heos hne
  | cont fuel y acc out hne hrec ih =>
    cases h2 with
    | eosStop _ _ _ heos => exact absurd heos hne
    | cont _ _ _ _ _ hrec2 => exact ih hrec2

/-- The loop of `validation_step` realises the relation. -/
theorem decodeAux_DecStepRel {Img Mem : Type} (t : Transformer Img Mem)
    (mem : Mem) : ∀ (fuel : ℕ) (y : List ℕ) (acc : List String)
    (calls : List (List ℕ)),
    DecStepRel t mem fuel y acc (decodeAux t mem fuel y acc calls).1 := by
  intro fuel
  induction fuel with
  | zero => intro y acc calls; exact DecStepRel.fuelExhausted y acc
  | succ n ih =>
    intro y acc calls
    rw [decodeAux]
    by_cases heos : t.i2w (selTok t mem y) = t.eosWord
    · rw [if_pos heos]
      exact DecStepRel.eosStop n y acc heos
    · rw [if_neg heos]
      exact DecStepRel.cont n y acc _ heos (ih _ _ _)

/-- Any output of the loop relation extends the entry accumulator by at
most `fuel` words. -/
theorem DecStepRel_length {Img Mem : Type} (t : Transformer Img Mem)
    (mem : Mem) {fuel : ℕ} {y : List ℕ} {acc out : List String}
    (h : DecStepRel t mem fuel y acc out) :
    out.length ≤ acc.length + fuel := by
  induction h with
  | fuelExhausted y acc => omega
  | eosStop fuel y acc heos =>
    simp only [List.length_append, List.length_cons, List.length_nil]
    omega
  | cont fuel y acc out hne hrec ih => simp at ih; omega

/-- When the machine exhausts its fuel, it has emitted exactly `fuel`
words and none of them is the END marker. -/
theorem eosHit_false_characterization {Img Mem : Type}
    (t : Transformer Img Mem) (mem : Mem) :
    ∀ (fuel : ℕ) (y : List ℕ), eosHit t mem y fuel = false →
    stopCount t mem y fuel = fuel ∧
      ∀ k, k < fuel → wordFrom t mem y k ≠ t.eosWord := by
  intro fuel
  induction fuel with
  | zero => intro y _; exact ⟨rfl, fun k hk => absurd hk (by omega)⟩
  | succ n ih =>
    intro y h
    by_cases heos : t.i2w (selTok t mem y) = t.eosWord
    · rw [eosHit, if_pos heos] at h
      exact absurd h (by simp)
    · rw [eosHit, if_neg heos] at h
      obtain ⟨h1, h2⟩ := ih (y ++ [selTok t mem y]) h
      constructor
      · rw [stopCount, if_neg heos, h1]
        omega
      · intro k hk
        match k with
        | 0 => exact heos
        | k' + 1 =>
          rw [wordFrom_succ]
          exact h2 k' (by omega)

/-- C1 (amended): for every channel count divisible by 4 and positive
maximum height/width, the positional lookup table is built with shape
`[1, C, H, W]`; its first `C/2` channels hold sine (even channels) and
cosine (odd channels) of the horizontal (width) position, the second
`C/2` channels the same for the vertical (height) position, and the
frequency exponents form the progression `(2*j)/C` for `j = 0, …, C/4-1`
(that is, denominators `10000 ^ (i/C)` for `i = 0, 2, 4, …` below `C/2` —
not `10000 ^ (2*i/C)` as the specification text states, and channel counts
that are even but not divisible by 4 fail the broadcast check). -/
theorem pe_table_structure (C H W : ℕ) (hC : 4 ∣ C) (hH : 0 < H)
    (hW : 0 < W) :
    ∃ pe, buildPE C H W = some pe ∧ pe.d0 = 1 ∧ pe.d1 = C ∧ pe.d2 = H ∧
      pe.d3 = W ∧
      ∀ j h w, j < C / 4 → h < H → w < W →
        pe.data 0 (2 * j) h w =
            some ⟨Trig.sin, w, ((2 * j : ℕ) : ℚ) / (C : ℚ)⟩ ∧
          pe.data 0 (2 * j + 1) h w =
            some ⟨Trig.cos, w, ((2 * j : ℕ) : ℚ) / (C : ℚ)⟩ ∧
          pe.data 0 (C / 2 + 2 * j) h w =
            some ⟨Trig.sin, h, ((2 * j : ℕ) : ℚ) / (C : ℚ)⟩ ∧
          pe.data 0 (C / 2 + 2 * j + 1) h w =
            some ⟨Trig.cos, h, ((2 * j : ℕ) : ℚ) / (C : ℚ)⟩ := by
  obtain ⟨m, rfl⟩ := hC
  have hL : (denExp (4 * m)).length = m := by
    rw [denExp_length]; omega
  have hs1 : sliceLen2 0 (4 * m / 2) = m := by unfold sliceLen2; omega
  have hs2 : sliceLen2 1 (4 * m / 2) = m := by unfold sliceLen2; omega
  have hs3 : sliceLen2 (4 * m / 2) (4 * m) = m := by unfold sliceLen2; omega
  have hs4 : sliceLen2 (4 * m / 2 + 1) (4 * m) = m := by unfold sliceLen2; omega
  have hcond : (bcastOk (sliceLen2 0 (4 * m / 2)) (denExp (4 * m)).length &&
      bcastOk (sliceLen2 1 (4 * m / 2)) (denExp (4 * m)).length &&
      bcastOk (sliceLen2 (4 * m / 2) (4 * m)) (denExp (4 * m)).length &&
      bcastOk (sliceLen2 (4 * m / 2 + 1) (4 * m)) (denExp (4 * m)).length) =
      true := by
    rw [hL, hs1, hs2, hs3, hs4]
    simp [bcastOk]
  simp only [buildPE]
  rw [if_pos hcond]
  refine ⟨_, rfl, rfl, rfl, rfl, rfl, ?_⟩
  intro j h w hj hh hw
  have hjm : j < m := by omega
  have hidx : ∀ c : ℕ, (if (denExp (4 * m)).length = 1 then 0 else (2 * j + c - c) / 2) = j := by
    intro c
    rw [hL]
    split
    · omega
    · omega
  have hden : (denExp (4 * m)).getD j 0 = ((2 * j : ℕ) : ℚ) / ((4 * m : ℕ) : ℚ) := by
    rw [denExp_getD (4 * m) j (by omega)]
  refine ⟨?_, ?_, ?_, ?_⟩
  · simp only [permute0312, assignLast2]
    rw [if_neg (by omega), if_neg (by omega), if_neg (by omega),
      if_pos (by omega : 0 ≤ 2 * j ∧ 2 * j < 4 * m / 2 ∧ (2 * j - 0) % 2 = 0)]
    have := hidx 0
    simp only [Nat.sub_zero] at this ⊢
    rw [show (if (denExp (4 * m)).length = 1 then 0 else 2 * j / 2) = j from by
      rw [hL]; split <;> omega]
    rw [hden]
  · simp only [permute0312, assignLast2]
    rw [if_neg (by omega), if_neg (by omega),
      if_pos (by omega : 1 ≤ 2 * j + 1 ∧ 2 * j + 1 < 4 * m / 2 ∧ (2 * j + 1 - 1) % 2 = 0)]
    rw [show (if (denExp (4 * m)).length = 1 then 0 else (2 * j + 1 - 1) / 2) = j from by
      rw [hL]; split <;> omega]
    rw [hden]
  · simp only [permute0312, assignLast2]
    rw [if_neg (by omega),
      if_pos (by omega : 4 * m / 2 ≤ 4 * m / 2 + 2 * j ∧ 4 * m / 2 + 2 * j < 4 * m ∧ (4 * m / 2 + 2 * j - 4 * m / 2) % 2 = 0)]
    rw [show (if (denExp (4 * m)).length = 1 then 0 else (4 * m / 2 + 2 * j - 4 * m / 2) / 2) = j from by
      rw [hL]; split <;> omega]
    rw [hden]
  · simp only [permute0312, assignLast2]
    rw [if_pos (by omega : 4 * m / 2 + 1 ≤ 4 * m / 2 + 2 * j + 1 ∧ 4 * m / 2 + 2 * j + 1 < 4 * m ∧ (4 * m / 2 + 2 * j + 1 - (4 * m / 2 + 1)) % 2 = 0)]
    rw [show (if (denExp (4 * m)).length = 1 then 0 else (4 * m / 2 + 2 * j + 1 - (4 * m / 2 + 1)) / 2) = j from by
      rw [hL]; split <;> omega]
    rw [hden]

/-- C1 counterexample: the claim fails on the code as stated.  At channel
count 6 (even but not divisible by 4) the table construction fails
PyTorch's broadcast check instead of producing a `[1, 6, H, W]` table; and
at channel count 8 the code's frequency exponents `[0, 1/4]` (denominators
`10000^(i/C)` for `i = 0, 2`) differ from the exponents `[0, 1/2]` that
the claimed formula `10000^(2i/C)`, `i = 0, 2, 4, …`, prescribes — also as
real denominators, since `x ↦ 10000^x` is strictly monotone. -/
theorem pe_table_claim_counterexample :
    buildPE 6 1 1 = none ∧ denExp 8 ≠ specDenExp 8 ∧
      realDen (denExp 8) ≠ realDen (specDenExp 8) := by
  refine ⟨rfl, ?_, ?_⟩
  · intro h
    rw [denExp_eight, specDenExp_eight] at h
    simp only [List.cons.injEq, and_true] at h
    norm_num at h
  · intro h
    rw [denExp_eight, specDenExp_eight] at h
    simp only [realDen, List.map_cons, List.map_nil, List.cons.injEq,
      and_true] at h
    have hlt : ((10000 : ℝ) : ℝ) ^ (((1 : ℚ) / 4 : ℚ) : ℝ) <
        (10000 : ℝ) ^ (((1 : ℚ) / 2 : ℚ) : ℝ) := by
      refine (Real.rpow_lt_rpow_left_iff (by norm_num)).mpr ?_
      push_cast
      norm_num
    exact absurd h.2 (ne_of_lt hlt)

/-- C2: for every model and decoder memory, the autoregressive decoding
loop of `validation_step` behaves as the spec's state machine: it starts
from the decoding sequence `[START token]`, at each step greedily selects
the argmax token of the last position's distribution and appends that
token's word to the output; if the word equals the END marker it
terminates without appending the token index to the decoding sequence
(only the last emitted word can be the END marker); otherwise it appends
the index and repeats; and if `max_seq_len` steps pass without the END
marker it terminates with the generated words, none of which is the END
marker. -/
theorem validation_decode_state_machine {Img Mem : Type}
    (t : Transformer Img Mem) (mem : Mem) :
    validation_decode t mem =
        (List.range (specStop t mem)).map (specWord t mem) ∧
      specTraj t mem 0 = [t.w2i t.sosWord] ∧
      validationYIn t mem =
        specTraj t mem
          (specStop t mem - (if specEosHit t mem = true then 1 else 0)) ∧
      (specEosHit t mem = true →
        specWord t mem (specStop t mem - 1) = t.eosWord ∧
          ∀ k, k < specStop t mem - 1 → specWord t mem k ≠ t.eosWord) ∧
      (specEosHit t mem = false →
        specStop t mem = t.max_seq_len ∧
          ∀ k, k < specStop t mem → specWord t mem k ≠ t.eosWord) := by
  have hchar := decodeAux_characterization t mem t.max_seq_len
    [t.w2i t.sosWord] [] []
  refine ⟨?_, rfl, ?_, ?_, ?_⟩
  · unfold validation_decode specStop specWord
    rw [hchar]
    simp
  · unfold validationYIn specStop specTraj specEosHit
    rw [hchar]
  · intro he
    exact eosHit_true_characterization t mem t.max_seq_len _ he
  · intro he
    have h := eosHit_false_characterization t mem t.max_seq_len _ he
    refine ⟨h.1, fun k hk => h.2 k ?_⟩
    have h1 := h.1
    unfold specStop at hk
    omega

/-- C2 witness: on the concrete `demoModel`, the theorem applied at
`(demoModel, ())` yields the decoded sequence characterization; the run
hits the END marker, the last emitted word is it, and the decoded output
is the spec §8 sequence. -/
theorem validation_decode_state_machine_witness :
    validation_decode demoModel () =
        (List.range (specStop demoModel ())).map (specWord demoModel ()) ∧
      specEosHit demoModel () = true ∧
      specWord demoModel () (specStop demoModel () - 1) = demoModel.eosWord ∧
      validation_decode demoModel () = ["a", "b", "<EOS>"] :=
  ⟨(validation_decode_state_machine demoModel ()).1, by decide,
    ((validation_decode_state_machine demoModel ()).2.2.2.1 (by decide)).1,
    by decide⟩

/-- C4: throughout every run of the autoregressive decoding loop, the
decoding-state token sequence fed to the decoder has length at most
`max_seq_len`, and the loop terminates at or before that bound (the
number of executed iterations, which equals the number of emitted words,
is at most `max_seq_len`). -/
theorem decoding_state_bounded {Img Mem : Type} (t : Transformer Img Mem)
    (mem : Mem) :
    (∀ c ∈ validationCalls t mem, c.length ≤ t.max_seq_len) ∧
      (validation_decode t mem).length ≤ t.max_seq_len ∧
      (validationCalls t mem).length ≤ t.max_seq_len := by
  have hchar := decodeAux_characterization t mem t.max_seq_len
    [t.w2i t.sosWord] [] []
  have hstop := stopCount_le_fuel t mem t.max_seq_len [t.w2i t.sosWord]
  refine ⟨?_, ?_, ?_⟩
  · intro c hc
    unfold validationCalls at hc
    rw [hchar] at hc
    simp only [List.nil_append, List.mem_map, List.mem_range] at hc
    obtain ⟨k, hk, rfl⟩ := hc
    rw [trajFrom_length]
    simp only [List.length_cons, List.length_nil]
    omega
  · unfold validation_decode
    rw [hchar]
    simp only [List.nil_append, List.length_map, List.length_range]
    omega
  · unfold validationCalls
    rw [hchar]
    simp only [List.nil_append, List.length_map, List.length_range]
    omega

/-- C4 witness: the bound applied to the `demoModel` run, at the concrete
second decoder call `[1, 3]`. -/
theorem decoding_state_bounded_witness :
    ([1, 3] ∈ validationCalls demoModel () ∧
        ([1, 3] : List ℕ).length ≤ demoModel.max_seq_len) ∧
      (validation_decode demoModel ()).length ≤ demoModel.max_seq_len :=
  ⟨⟨by decide, (decoding_state_bounded demoModel ()).1 [1, 3] (by decide)⟩,
    (decoding_state_bounded demoModel ()).2.1⟩

/-- C7: for every model and decoder memory, the probability-recording
decoding variant emits exactly the same word sequence as the plain
autoregressive loop of `validation_step` (hence terminates at the same
step), and returns exactly one top-1 score per emitted word. -/
theorem pred_prob_variant_equiv {Img Mem : Type} (t : Transformer Img Mem)
    (mem : Mem) :
    (get_pred_seq_and_pred_prob_seq t mem).1 = validation_decode t mem ∧
      (get_pred_seq_and_pred_prob_seq t mem).2.length =
        (get_pred_seq_and_pred_prob_seq t mem).1.length := by
  constructor
  · unfold get_pred_seq_and_pred_prob_seq validation_decode
    exact predAux_words_eq t mem t.max_seq_len [t.w2i t.sosWord] [] [] []
  · have h := predAux_probs_length t mem t.max_seq_len [t.w2i t.sosWord] [] []
    unfold get_pred_seq_and_pred_prob_seq
    simp only [List.length_nil] at h
    omega

/-- C8: greedy decoding is deterministic: any two runs of the decoding
loop's transition relation from the initial configuration produce
identical output word sequences, and each output has length at most
`max_seq_len`. -/
theorem greedy_decoding_deterministic {Img Mem : Type}
    (t : Transformer Img Mem) (mem : Mem) (out1 out2 : List String)
    (h1 : ValRun t mem out1) (h2 : ValRun t mem out2) :
    out1 = out2 ∧ out1.length ≤ t.max_seq_len := by
  refine ⟨DecStepRel_det t mem h1 h2, ?_⟩
  have h := DecStepRel_length t mem h1
  simpa using h

/-- C8 witness: the loop of `validation_step` on `demoModel` realises a
run of the relation, and the theorem applied to it twice gives equality
of outputs and the length bound. -/
theorem greedy_decoding_deterministic_witness :
    ValRun demoModel () (validation_decode demoModel ()) ∧
      (validation_decode demoModel () = validation_decode demoModel () ∧
        (validation_decode demoModel ()).length ≤ demoModel.max_seq_len) :=
  ⟨decodeAux_DecStepRel demoModel () demoModel.max_seq_len
      [demoModel.w2i demoModel.sosWord] [] [],
    greedy_decoding_deterministic demoModel () _ _
      (decodeAux_DecStepRel demoModel () demoModel.max_seq_len
        [demoModel.w2i demoModel.sosWord] [] [])
      (decodeAux_DecStepRel demoModel () demoModel.max_seq_len
        [demoModel.w2i demoModel.sosWord] [] [])⟩

/-- C3: the teacher-forcing corruptor preserves the batch's shape; with
corruption probability 0 the returned tensor equals the input exactly;
every padding position is preserved unchanged for every probability; and
with probability 1 every non-padding position of the result holds a draw
of `randint(0, len(w2i) - 1)` from the random source (possibly equal to
the original), in particular a valid vocabulary index. -/
theorem apply_teacher_forcing_contract {Img Mem : Type}
    (t : Transformer Img Mem) (h : PyHeap) (yid : ℕ) (g : PyRandom)
    (hwf : WFRandom g) (hyid : yid < h.nextId) :
    ((apply_teacher_forcing t h yid g).2.1.store
        (apply_teacher_forcing t h yid g).1).length =
        (h.store yid).length ∧
      (∀ i, (((apply_teacher_forcing t h yid g).2.1.store
          (apply_teacher_forcing t h yid g).1).getD i []).length =
        ((h.store yid).getD i []).length) ∧
      (t.teacher_forcing_prob = 0 →
        (apply_teacher_forcing t h yid g).2.1.store
          (apply_teacher_forcing t h yid g).1 = h.store yid) ∧
      (∀ i j, getCell (h.store yid) i j = t.padding_idx →
        getCell ((apply_teacher_forcing t h yid g).2.1.store
          (apply_teacher_forcing t h yid g).1) i j =
          getCell (h.store yid) i j) ∧
      (t.teacher_forcing_prob = 1 →
        ∀ i j, i < (h.store yid).length →
          j < ((h.store yid).getD i []).length →
          getCell (h.store yid) i j ≠ t.padding_idx →
          ∃ k, getCell ((apply_teacher_forcing t h yid g).2.1.store
              (apply_teacher_forcing t h yid g).1) i j =
              g.ifun k (t.vocab_size - 1) ∧
            getCell ((apply_teacher_forcing t h yid g).2.1.store
              (apply_teacher_forcing t h yid g).1) i j ≤
              t.vocab_size - 1) := by
  have hne : yid ≠ h.nextId := by omega
  have hrid : (apply_teacher_forcing t h yid g).1 = h.nextId := rfl
  have hbody : (apply_teacher_forcing t h yid g).2 =
      tfRows t.teacher_forcing_prob t.padding_idx (t.vocab_size - 1) yid
        h.nextId (h.store yid) (List.range (h.store yid).length)
        (⟨Function.update h.store h.nextId (h.store yid), h.nextId + 1⟩, g) :=
    rfl
  have hclone_rid : (Function.update h.store h.nextId (h.store yid))
      h.nextId = h.store yid := Function.update_same _ _ _
  have hclone_yid : (Function.update h.store h.nextId (h.store yid)) yid =
      h.store yid := Function.update_noteq hne _ _
  rw [hrid, hbody]
  obtain ⟨hlen1, hlen2⟩ := tfRows_lengths t.teacher_forcing_prob
    t.padding_idx (t.vocab_size - 1) yid h.nextId (h.store yid)
    (List.range (h.store yid).length)
    (⟨Function.update h.store h.nextId (h.store yid), h.nextId + 1⟩, g)
  refine ⟨?_, ?_, ?_, ?_, ?_⟩
  · rw [hlen1]
    show (Function.update h.store h.nextId (h.store yid) h.nextId).length = _
    rw [hclone_rid]
  · intro i
    rw [hlen2 i]
    show ((Function.update h.store h.nextId (h.store yid) h.nextId).getD
      i []).length = _
    rw [hclone_rid]
  · intro hp0
    rw [tfRows_p0 t.teacher_forcing_prob t.padding_idx (t.vocab_size - 1)
      yid h.nextId (h.store yid) hp0 (List.range (h.store yid).length)
      _ hwf]
    exact hclone_rid
  · intro i j hpad
    have hpad1 : getCell ((⟨Function.update h.store h.nextId (h.store yid),
        h.nextId + 1⟩ : PyHeap).store yid) i j = t.padding_idx := by
      show getCell (Function.update h.store h.nextId (h.store yid) yid) i j =
        t.padding_idx
      rw [hclone_yid]
      exact hpad
    rw [tfRows_pad t.teacher_forcing_prob t.padding_idx (t.vocab_size - 1)
      yid h.nextId i j (h.store yid) hne
      (List.range (h.store yid).length) _ hpad1]
    show getCell (Function.update h.store h.nextId (h.store yid) h.nextId)
      i j = _
    rw [hclone_rid]
  · intro hp1 i j hi hj hnp
    have hnp1 : getCell ((⟨Function.update h.store h.nextId (h.store yid),
        h.nextId + 1⟩ : PyHeap).store yid) i j ≠ t.padding_idx := by
      show getCell (Function.update h.store h.nextId (h.store yid) yid) i j ≠
        t.padding_idx
      rw [hclone_yid]
      exact hnp
    obtain ⟨k, hk⟩ := tfRows_p1_write t.teacher_forcing_prob t.padding_idx
      (t.vocab_size - 1) yid h.nextId i j (h.store yid) hne hp1
      (List.range (h.store yid).length)
      (⟨Function.update h.store h.nextId (h.store yid), h.nextId + 1⟩, g)
      hwf (List.nodup_range _)
      (List.mem_range.mpr hi) hj hnp1
      (by show i < (Function.update h.store h.nextId (h.store yid)
        h.nextId).length; rw [hclone_rid]; exact hi)
      (by show j < ((Function.update h.store h.nextId (h.store yid)
        h.nextId).getD i []).length; rw [hclone_rid]; exact hj)
    exact ⟨k, hk, hk ▸ hwf.2 k (t.vocab_size - 1)⟩

/-- C3 witness: the contract applied to the concrete heap `demoHeap`
(holding the batch `[[3, 0]]` at id 0), `demoModel` (whose corruption
probability is 1 and padding index 0) and the well-formed source
`demoRandom`: the non-padding cell `(0,0)` is replaced by a `randint`
draw and the padding cell `(0,1)` is preserved. -/
theorem apply_teacher_forcing_contract_witness :
    WFRandom demoRandom ∧ 0 < demoHeap.nextId ∧
      getCell (demoHeap.store 0) 0 1 = demoModel.padding_idx ∧
      getCell ((apply_teacher_forcing demoModel demoHeap 0 demoRandom).2.1.store
          (apply_teacher_forcing demoModel demoHeap 0 demoRandom).1) 0 1 =
        getCell (demoHeap.store 0) 0 1 :=
  ⟨demoRandom_wf, by decide, by decide,
    (apply_teacher_forcing_contract demoModel demoHeap 0 demoRandom
      demoRandom_wf (by decide)).2.2.2.1 0 1 (by decide)⟩

/-- C9: the teacher-forcing corruptor never mutates the caller's batch in
place: it returns a freshly allocated tensor id, distinct from the input
id, and the heap cell of the input id is unchanged afterwards. -/
theorem teacher_forcing_no_mutation {Img Mem : Type}
    (t : Transformer Img Mem) (h : PyHeap) (yid : ℕ) (g : PyRandom)
    (hyid : yid < h.nextId) :
    (apply_teacher_forcing t h yid g).1 ≠ yid ∧
      (apply_teacher_forcing t h yid g).2.1.store yid = h.store yid := by
  have hne : yid ≠ h.nextId := by omega
  constructor
  · show h.nextId ≠ yid
    omega
  · show (tfRows t.teacher_forcing_prob t.padding_idx (t.vocab_size - 1) yid
        h.nextId (h.store yid) (List.range (h.store yid).length)
        (⟨Function.update h.store h.nextId (h.store yid), h.nextId + 1⟩,
          g)).1.store yid = h.store yid
    rw [tfRows_store_ne t.teacher_forcing_prob t.padding_idx
      (t.vocab_size - 1) yid h.nextId yid (h.store yid) hne
      (List.range (h.store yid).length) _]
    show Function.update h.store h.nextId (h.store yid) yid = h.store yid
    exact Function.update_noteq hne _ _

/-- C9 witness: on the concrete heap `demoHeap`, the corruptor run at
tensor id 0 returns a different id and leaves the tensor at id 0
untouched. -/
theorem teacher_forcing_no_mutation_witness :
    0 < demoHeap.nextId ∧
      ((apply_teacher_forcing demoModel demoHeap 0 demoRandom).1 ≠ 0 ∧
        (apply_teacher_forcing demoModel demoHeap 0 demoRandom).2.1.store 0 =
          demoHeap.store 0) :=
  ⟨by decide,
    teacher_forcing_no_mutation demoModel demoHeap 0 demoRandom (by decide)⟩

/-- C1 witness: the amended table-structure theorem applied at the
concrete parameters `C = 4`, `H = 1`, `W = 1`. -/
theorem pe_table_structure_witness :
    ((4 : ℕ) ∣ 4 ∧ 0 < 1 ∧ 0 < 1) ∧
      (∃ pe, buildPE 4 1 1 = some pe ∧ pe.d0 = 1 ∧ pe.d1 = 4 ∧ pe.d2 = 1 ∧
        pe.d3 = 1 ∧
        ∀ j h w, j < 4 / 4 → h < 1 → w < 1 →
          pe.data 0 (2 * j) h w =
              some ⟨Trig.sin, w, ((2 * j : ℕ) : ℚ) / ((4 : ℕ) : ℚ)⟩ ∧
            pe.data 0 (2 * j + 1) h w =
              some ⟨Trig.cos, w, ((2 * j : ℕ) : ℚ) / ((4 : ℕ) : ℚ)⟩ ∧
            pe.data 0 (4 / 2 + 2 * j) h w =
              some ⟨Trig.sin, h, ((2 * j : ℕ) : ℚ) / ((4 : ℕ) : ℚ)⟩ ∧
            pe.data 0 (4 / 2 + 2 * j + 1) h w =
              some ⟨Trig.cos, h, ((2 * j : ℕ) : ℚ) / ((4 : ℕ) : ℚ)⟩) :=
  ⟨⟨⟨1, rfl⟩, Nat.one_pos, Nat.one_pos⟩,
    pe_table_structure 4 1 1 ⟨1, rfl⟩ Nat.one_pos Nat.one_pos⟩

/-- C5 (amended): for every prior accumulator content, the epoch-end
operation completes without error and afterwards both accumulators have
length 0, provided that when a random sample is emitted for display both
accumulators are nonempty and of equal length; the returned metrics are
computed by the external metrics collaborator on the full pre-clear
accumulator contents.  (With empty accumulators and sample emission
requested, the code instead fails: `random.randint(0, -1)` raises.) -/
theorem epoch_end_clears {Img Mem : Type} (t : Transformer Img Mem)
    (cm : List (List String) → List (List String) → List (String × ℚ))
    (pr : Bool) (g : PyRandom) (hwf : WFRandom g)
    (hfill : pr = true → t.Y ≠ [] ∧ t.YHat.length = t.Y.length) :
    ∃ t' metrics g',
      on_validation_epoch_end t cm pr g = some (t', metrics, g') ∧
        t'.Y = [] ∧ t'.YHat = [] ∧ metrics = cm t.Y t.YHat := by
  cases pr with
  | false =>
    exact ⟨{ t with Y := [], YHat := [] }, cm t.Y t.YHat, g, rfl, rfl, rfl,
      rfl⟩
  | true =>
    obtain ⟨hne, hlen⟩ := hfill rfl
    obtain ⟨n, hn⟩ : ∃ n, t.Y.length = n + 1 :=
      ⟨t.Y.length - 1, by have := List.length_pos.mpr hne; omega⟩
    have hidx : g.ifun g.ikey n < t.Y.length := by
      have := hwf.2 g.ikey n
      omega
    have hidx2 : g.ifun g.ikey n < t.YHat.length := by omega
    have hY : t.Y.get? (g.ifun g.ikey n) = some (t.Y.get ⟨_, hidx⟩) :=
      List.get?_eq_get hidx
    have hYH : t.YHat.get? (g.ifun g.ikey n) =
        some (t.YHat.get ⟨_, hidx2⟩) := List.get?_eq_get hidx2
    refine ⟨{ t with Y := [], YHat := [] }, cm t.Y t.YHat,
      { g with ikey := g.ikey + 1 }, ?_, rfl, rfl, rfl⟩
    have key : on_validation_epoch_end t cm true g =
        (match t.Y.get? (g.ifun g.ikey n), t.YHat.get? (g.ifun g.ikey n) with
        | some _, some _ =>
          some ({ t with Y := [], YHat := [] }, cm t.Y t.YHat,
            { g with ikey := g.ikey + 1 })
        | _, _ => none) := by
      simp only [on_validation_epoch_end, hn]
      rfl
    rw [key, hY, hYH]

/-- C5 counterexample: with both accumulators empty and a random sample
requested for display, the epoch-end operation fails
(`random.randint(0, -1)` raises a `ValueError`) instead of completing;
the accumulators are not cleared by a successful return. -/
theorem epoch_end_empty_counterexample :
    demoModel.Y = [] ∧ demoModel.YHat = [] ∧
      on_validation_epoch_end demoModel demoMetrics true demoRandom =
        none :=
  ⟨rfl, rfl, rfl⟩

/-- C5 witness: the amended theorem applied to the concrete
`demoModelFilled` (one entry in each accumulator), with a random sample
requested. -/
theorem epoch_end_clears_witness :
    WFRandom demoRandom ∧
      (true = true → demoModelFilled.Y ≠ [] ∧
        demoModelFilled.YHat.length = demoModelFilled.Y.length) ∧
      (∃ t' metrics g',
        on_validation_epoch_end demoModelFilled demoMetrics true demoRandom =
            some (t', metrics, g') ∧
          t'.Y = [] ∧ t'.YHat = [] ∧
          metrics = demoMetrics demoModelFilled.Y demoModelFilled.YHat) :=
  ⟨demoRandom_wf, fun _ => ⟨by decide, by decide⟩,
    epoch_end_clears demoModelFilled demoMetrics true demoRandom
      demoRandom_wf (fun _ => ⟨by decide, by decide⟩)⟩

/-- C6: for every `[batch, C, H, W]` tensor, the feature flattening step
`x.flatten(2).permute(0, 2, 1)` returns a `[batch, H*W, C]` tensor whose
sequence axis enumerates the spatial positions in row-major order over
(height, width) — position `(h, w)` lands at sequence index `h*W + w` —
with the channel axis moved last; the memory sequence length is `H * W`.
The adapter is a pure function with no learned parameters. -/
theorem flatten_features_row_major (t : Tensor4 ℚ) :
    (flattenFeatures t).d0 = t.d0 ∧ (flattenFeatures t).d1 = t.d2 * t.d3 ∧
      (flattenFeatures t).d2 = t.d1 ∧
      ∀ b c h w, w < t.d3 →
        (flattenFeatures t).data b (h * t.d3 + w) c = t.data b c h w := by
  refine ⟨rfl, rfl, rfl, ?_⟩
  intro b c h w hw
  have h3 : 0 < t.d3 := lt_of_le_of_lt (Nat.zero_le w) hw
  show t.data b c ((h * t.d3 + w) / t.d3) ((h * t.d3 + w) % t.d3) =
    t.data b c h w
  have hd : (h * t.d3 + w) / t.d3 = h := by
    rw [Nat.add_comm, Nat.add_mul_div_right w h h3, Nat.div_eq_of_lt hw,
      Nat.zero_add]
  have hm : (h * t.d3 + w) % t.d3 = w := by
    rw [Nat.add_comm, Nat.add_mul_mod_self_right, Nat.mod_eq_of_lt hw]
  rw [hd, hm]

/-- C6 witness: the row-major flattening applied to a concrete
`[1, 1, 2, 3]` grid at spatial position `(1, 2)`. -/
theorem flatten_features_row_major_witness :
    2 < demoGrid.d3 ∧
      (flattenFeatures demoGrid).data 0 (1 * demoGrid.d3 + 2) 0 =
        demoGrid.data 0 0 1 2 :=
  ⟨by decide, (flatten_features_row_major demoGrid).2.2.2 0 0 1 2 (by decide)⟩

/-- C10: when the optional evaluation-time index-to-word mapping is not
supplied (`None`), the constructed model's `ytest_i2w` is its own `i2w`,
and `validation_step` records the ground truth (with the start token
stripped) decoded through `i2w` — the model's own symbol space. -/
theorem ytest_default_i2w {Img Mem : Type} (max_seq_len : ℕ)
    (w2i : String → ℕ) (i2w : ℕ → String) (tf : ℚ) (V : ℕ)
    (sos eos : String) (prep : List Img → Mem)
    (dec : List ℕ → Mem → ℕ → ℕ → ℚ) (x : Img) (y0 : List ℕ)
    (rest : List (List ℕ)) :
    (mkTransformer max_seq_len w2i i2w none tf V sos eos prep dec).ytest_i2w
        = i2w ∧
      (validation_step
          (mkTransformer max_seq_len w2i i2w none tf V sos eos prep dec)
          [x] (y0 :: rest)).map (fun t' => t'.Y) =
        some [(y0.drop 1).map i2w] := by
  constructor
  · rfl
  · rfl
